import Mathlib

/-!
Verification of the janggu DNA-encoding specification.

The repository ships `src/janggo/model.py` (the model wrapper) together with
`tests/test_dna_dataset.py`, which exercises the sequence-encoding core
(`janggo.utils.complement_permmatrix`, `janggo.data.Dna`,
`janggo.layers.Complement` / `Reverse`).  The encoding core itself is not part
of the sources at hand, so it is modelled here from the specification
(sections 3, 4.1-4.3, 6, 7 of the design document); the model wrapper is
embedded directly from `model.py`.
-/

/-- Modelled from the spec: the fixed base table of the Alphabet/K-mer Encoder
(`janggo.utils`, not included under `src/`): A maps to 0, C to 1, G to 2, T to
3; every other symbol has no valid index. -/
def baseIndex (c : Char) : Option Nat :=
  if c = 'A' then some 0
  else if c = 'C' then some 1
  else if c = 'G' then some 2
  else if c = 'T' then some 3
  else none

/-- Modelled from the spec: positional weighting of a k-mer digit list, most
significant base first.  `kmerIndex [d0, ..., d(k-1)]` is the sum of
`dp * 4 ^ (k - 1 - p)` over positions `p`. -/
def kmerIndex : List Nat → Nat
  | [] => 0
  | d :: ds => d * 4 ^ ds.length + kmerIndex ds

/-- Modelled from the spec: mapping of the characters of one k-mer to their
base digits; any character outside the table (after uppercasing) makes the
whole k-mer invalid (`none`). -/
def kmerDigits : List Char → Option (List Nat)
  | [] => some []
  | c :: cs =>
    match baseIndex c.toUpper, kmerDigits cs with
    | some d, some ds => some (d :: ds)
    | _, _ => none

/-- Modelled from the spec: the index of one k-mer, `none` when a symbol is
unknown or ambiguous. -/
def kmerCode (w : List Char) : Option Nat :=
  (kmerDigits w).map kmerIndex

/-- Modelled from the spec: the sliding windows of width `k` stepped by 1
across a string; a string of length `L` yields `L - k + 1` windows. -/
def slidingWindows (k : Nat) (s : List Char) : List (List Char) :=
  (List.range (s.length + 1 - k)).map (fun w => (s.drop w).take k)

/-- Modelled from the spec: the Encoder output, one k-mer index (or `none`)
per sliding window of width `order`. -/
def seq2ind (order : Nat) (s : List Char) : List (Option Nat) :=
  (slidingWindows order s).map kmerCode

/-- Modelled from the spec: a one-hot row of width `n`; an invalid k-mer
(`none`) yields the all-zero row. -/
def oneHotRow (n : Nat) : Option Nat → List Nat
  | none => List.replicate n 0
  | some t => (List.range n).map (fun j => if j = t then 1 else 0)

/-- Modelled from the spec: the forward-strand one-hot slab of a window
string, shape `(length - order + 1, 4 ^ order)`. -/
def encodeSlab (order : Nat) (s : List Char) : List (List Nat) :=
  (seq2ind order s).map (oneHotRow (4 ^ order))

/-- Modelled from the spec: the `k` base-4 digits of a k-mer index, most
significant digit first. -/
def digitsBase4 : Nat → Nat → List Nat
  | 0, _ => []
  | k + 1, i => i / 4 ^ k :: digitsBase4 k (i % 4 ^ k)

/-- Modelled from the spec: the reverse-complement index of k-mer `i`: the
base-4 digits of `i` are reversed and each digit `x` is replaced by `3 - x`,
then recomposed. -/
def rcIndex (k i : Nat) : Nat :=
  kmerIndex (((digitsBase4 k i).reverse).map (fun d => 3 - d))

/-- Modelled from the spec: `janggo.utils.complement_permmatrix` (not included
under `src/`), the `4 ^ order` by `4 ^ order` permutation matrix with row `i`
carrying a single 1 at the reverse-complement index of `i`. -/
def complement_permmatrix (order : Nat) : List (List Nat) :=
  (List.range (4 ^ order)).map
    (fun i => (List.range (4 ^ order)).map (fun j => if j = rcIndex order i then 1 else 0))

/-- Column `j` of a list-of-rows matrix. -/
def colOf (m : List (List Nat)) (j : Nat) : List Nat :=
  m.map (fun row => row.getD j 0)

/-- Dot product of two vectors given as lists. -/
def dotprod (v w : List Nat) : Nat :=
  (List.zipWith (fun a b => a * b) v w).sum

/-- Row-vector times matrix, the matrix given as a list of rows with `ncols`
columns. -/
def vecMatMul (v : List Nat) (m : List (List Nat)) (ncols : Nat) : List Nat :=
  (List.range ncols).map (fun j => dotprod v (colOf m j))

/-- Matrix product of two list-of-rows matrices, the second with `ncols`
columns. -/
def matMulL (a b : List (List Nat)) (ncols : Nat) : List (List Nat) :=
  a.map (fun row => vecMatMul row b ncols)

/-- The identity matrix of size `n` as a list of rows. -/
def idMatrix (n : Nat) : List (List Nat) :=
  (List.range n).map (fun i => (List.range n).map (fun j => if j = i then 1 else 0))

/-- Modelled from the spec: the `Complement` transformation layer
(`janggo.layers`, not included under `src/`): it applies the order-specific
reverse-complement permutation matrix to every one-hot row of a slab. -/
def complementLayer (order : Nat) (slab : List (List Nat)) : List (List Nat) :=
  slab.map (fun v => vecMatMul v (complement_permmatrix order) (4 ^ order))

/-- Modelled from the spec: strand-aware encoding of one window
(`janggo.data.Dna`, not included under `src/`).  On the reverse strand the
forward slab is reversed along the window-length axis and the permutation
matrix is applied to every row; on the forward strand it is returned as is. -/
def encodeRegion (order : Nat) (s : List Char) (strand : Char) : List (List Nat) :=
  if strand = '-' then complementLayer order ((encodeSlab order s).reverse)
  else encodeSlab order s

/-- A genomic interval: chromosome, start, stop and strand. -/
structure GenomicRegion where
  chrom : String
  start : Nat
  stop : Nat
  strand : Char
deriving DecidableEq, Repr

/-- Length of a region in base pairs. -/
def regionLength (r : GenomicRegion) : Nat :=
  r.stop - r.start

/-- Modelled from the spec: the start positions of the sliding windows of
length `reglen` stepped by `stepsize` inside `[p, stop)`.  Stepping is only
performed for validated parameters (`reglen`, `stepsize` positive), matching
the fail-fast validation of the builder. -/
def windowStarts (reglen stepsize stop p : Nat) : List Nat :=
  if h : 1 ≤ reglen ∧ 1 ≤ stepsize ∧ p + reglen ≤ stop then
    p :: windowStarts reglen stepsize stop (p + stepsize)
  else []
termination_by stop - p
decreasing_by omega

/-- Modelled from the spec: the window start positions of one region. -/
def regionWindows (reglen stepsize : Nat) (r : GenomicRegion) : List Nat :=
  windowStarts reglen stepsize r.stop r.start

/-- Modelled from the spec: all window start positions of a dataset, region by
region. -/
def datasetWindows (reglen stepsize : Nat) (regions : List GenomicRegion) : List Nat :=
  (regions.map (regionWindows reglen stepsize)).flatten

/-- Modelled from the spec: the length of the dataset, one entry per window. -/
def datasetLength (reglen stepsize : Nat) (regions : List GenomicRegion) : Nat :=
  (datasetWindows reglen stepsize regions).length

/-- Modelled from the spec: the per-region window count,
`(region_length - reglen + stepsize) / stepsize` when the region is at least
`reglen` long and zero otherwise. -/
def regionWindowCount (reglen stepsize : Nat) (r : GenomicRegion) : Nat :=
  if reglen ≤ regionLength r then (regionLength r - reglen + stepsize) / stepsize else 0

/-- Modelled from the spec: the storage backend selector, in-memory array or
persisted on-disk structure. -/
inductive StorageMode where
  | ndarray
  | hdf5
deriving DecidableEq, Repr

/-- Modelled from the spec: the nucleotide content of one window, extended by
`flank` on both sides; the reference is an idealized total map from positions
to characters. -/
def extractWindow (genome : Nat → Char) (reglen flank wstart : Nat) : List Char :=
  (List.range (reglen + 2 * flank)).map (fun t => genome (wstart - flank + t))

/-- Modelled from the spec: the Sequence Tensor Builder output
(`janggo.data.Dna.create_from_refgenome`, not included under `src/`): the 4-d
tensor of shape `(num_windows, reglen + 2*flank - order + 1, 4^order, 1)`.
The numeric contents do not depend on the storage backend. -/
def dnaTensorFromRefgenome (storage : StorageMode) (order reglen flank stepsize : Nat)
    (genome : Nat → Char) (regions : List GenomicRegion) :
    List (List (List (List Nat))) :=
  (datasetWindows reglen stepsize regions).map
    (fun w => (encodeSlab order (extractWindow genome reglen flank w)).map
      (fun row => row.map (fun x => [x])))

/-- Modelled from the spec: the error taxonomy of the builder. -/
inductive ValueKind where
  | InvalidOrder
  | InvalidWindowParams
  | InvalidRegions
  | MissingReference
deriving DecidableEq, Repr

/-- Modelled from the spec: eager construction-time validation of
`Dna.create_from_refgenome` (not included under `src/`).  Every parameter
violation aborts the build before extraction; only valid configurations
produce a tensor. -/
def createFromRefgenome (storage : StorageMode) (order reglen flank stepsize : Int)
    (regions : Option (List GenomicRegion)) (refReadable : Bool)
    (genome : Nat → Char) : Except ValueKind (List (List (List (List Nat)))) :=
  if order < 1 then .error .InvalidOrder
  else if reglen ≤ 0 ∨ flank < 0 ∨ stepsize ≤ 0 then .error .InvalidWindowParams
  else if regions.isNone then .error .InvalidRegions
  else if refReadable = false then .error .MissingReference
  else .ok (dnaTensorFromRefgenome storage order.toNat reglen.toNat flank.toNat
    stepsize.toNat genome (regions.getD []))

/-- Embedded from `src/src/janggo/model.py`, `Janggo.create` lines 238-251:
the string fed to the md5 hasher when no explicit name is given.  The string
built from the parse-tree entry (modelzoo branch) or the model-function name
plus the model parameters is reassigned to `str(inputp) + str(outputp)` before
hashing, mirrored here by the shadowing `let`. -/
def janggoCreateNameInput (parseTreeEntry modelfctName modelparamsStr : String)
    (modelzoo : Option String) (inputpStr outputpStr : String) : String :=
  let name' := match modelzoo with
    | some _ => parseTreeEntry
    | none => modelfctName
  let name' := name' ++ modelparamsStr
  let name' := inputpStr ++ outputpStr
  name'

/-- Embedded from `src/src/janggo/model.py`: the auto-generated model name is
the hex digest of the hasher input; the digest function itself is the external
`hashlib.md5`, taken as a parameter. -/
def janggoAutoName (md5hex : String → String)
    (parseTreeEntry modelfctName modelparamsStr : String)
    (modelzoo : Option String) (inputpStr outputpStr : String) : String :=
  md5hex (janggoCreateNameInput parseTreeEntry modelfctName modelparamsStr modelzoo
    inputpStr outputpStr)

/-- A Python argument for the `name` setter: either a string or a value of any
other type. -/
inductive PyArg where
  | pystr (s : String)
  | nonstr
deriving DecidableEq, Repr

/-- Embedded from `src/src/janggo/model.py`, the `name` setter lines 123-129:
raise when the argument is not a string, raise when it contains a dot,
otherwise store the name unchanged.  (Original messages: "Name must be a
string." and a message rejecting a dot in the name.) -/
def setName (arg : PyArg) : Except String String :=
  match arg with
  | .nonstr => .error "Name must be a string."
  | .pystr s =>
    if s.contains '.' then .error "A dot in the name is not allowed."
    else .ok s

/-- The Janggo model wrapper, reduced to the state relevant for the name
invariant: `_name` is only ever written through the setter. -/
structure Janggo where
  name : String
deriving DecidableEq, Repr

/-- Embedded from `src/src/janggo/model.py`, `Janggo.__init__` line 44:
`self.name = name` goes through the name setter; construction fails exactly
when the setter raises. -/
def janggoInit (arg : PyArg) : Except String Janggo :=
  (setName arg).map (fun s => { name := s })

theorem length_digitsBase4 (k i : Nat) : (digitsBase4 k i).length = k := by
  induction k generalizing i with
  | zero => rfl
  | succ k ih => simp [digitsBase4, ih]

theorem kmerIndex_digitsBase4 (k i : Nat) (h : i < 4 ^ k) :
    kmerIndex (digitsBase4 k i) = i := by
  induction k generalizing i with
  | zero =>
    simp only [digitsBase4, kmerIndex]
    omega
  | succ k ih =>
    have hpow : 0 < 4 ^ k := Nat.pow_pos (by norm_num)
    have hmod : i % 4 ^ k < 4 ^ k := Nat.mod_lt _ hpow
    simp only [digitsBase4, kmerIndex, length_digitsBase4, ih _ hmod]
    rw [Nat.mul_comm]
    exact Nat.div_add_mod i (4 ^ k)

theorem digitsBase4_lt (k i : Nat) (h : i < 4 ^ k) :
    ∀ d ∈ digitsBase4 k i, d < 4 := by
  induction k generalizing i with
  | zero => simp [digitsBase4]
  | succ k ih =>
    have hpow : 0 < 4 ^ k := Nat.pow_pos (by norm_num)
    intro d hd
    simp only [digitsBase4, List.mem_cons] at hd
    rcases hd with hd | hd
    · subst hd
      have hlt : i < 4 * 4 ^ k := by
        have hh := h
        rw [pow_succ] at hh
        omega
      exact (Nat.div_lt_iff_lt_mul hpow).mpr hlt
    · exact ih (i % 4 ^ k) (Nat.mod_lt _ hpow) d hd

theorem kmerIndex_lt (ds : List Nat) (h : ∀ d ∈ ds, d < 4) :
    kmerIndex ds < 4 ^ ds.length := by
  induction ds with
  | nil => simp [kmerIndex]
  | cons d t ih =>
    have hd : d < 4 := h d (by simp)
    have ht : kmerIndex t < 4 ^ t.length := ih (fun x hx => h x (by simp [hx]))
    simp only [kmerIndex, List.length_cons]
    calc d * 4 ^ t.length + kmerIndex t
        < d * 4 ^ t.length + 4 ^ t.length := by omega
      _ = (d + 1) * 4 ^ t.length := by ring
      _ ≤ 4 * 4 ^ t.length := Nat.mul_le_mul_right _ (by omega)
      _ = 4 ^ (t.length + 1) := by ring

theorem digitsBase4_kmerIndex (ds : List Nat) (h : ∀ d ∈ ds, d < 4) :
    digitsBase4 ds.length (kmerIndex ds) = ds := by
  induction ds with
  | nil => rfl
  | cons d t ih =>
    have hpow : 0 < 4 ^ t.length := Nat.pow_pos (by norm_num)
    have ht : kmerIndex t < 4 ^ t.length := kmerIndex_lt t (fun x hx => h x (by simp [hx]))
    have hdiv : (d * 4 ^ t.length + kmerIndex t) / 4 ^ t.length = d := by
      rw [Nat.mul_comm d, Nat.mul_add_div hpow, Nat.div_eq_of_lt ht]
      omega
    have hmod : (d * 4 ^ t.length + kmerIndex t) % 4 ^ t.length = kmerIndex t := by
      rw [Nat.mul_comm d, Nat.mul_add_mod]
      exact Nat.mod_eq_of_lt ht
    simp only [List.length_cons, digitsBase4, kmerIndex, hdiv, hmod]
    rw [ih (fun x hx => h x (by simp [hx]))]

theorem rcIndex_lt (k i : Nat) : rcIndex k i < 4 ^ k := by
  have h := kmerIndex_lt (((digitsBase4 k i).reverse).map (fun d => 3 - d)) ?_
  · simpa [rcIndex, length_digitsBase4] using h
  · intro d hd
    rw [List.mem_map] at hd
    obtain ⟨x, _, rfl⟩ := hd
    omega

theorem digitsBase4_rcIndex (k i : Nat) :
    digitsBase4 k (rcIndex k i) = ((digitsBase4 k i).reverse).map (fun d => 3 - d) := by
  have hlen : (((digitsBase4 k i).reverse).map (fun d => 3 - d)).length = k := by
    simp [length_digitsBase4]
  have hmem : ∀ d ∈ ((digitsBase4 k i).reverse).map (fun d => 3 - d), d < 4 := by
    intro d hd
    rw [List.mem_map] at hd
    obtain ⟨x, _, rfl⟩ := hd
    omega
  have h := digitsBase4_kmerIndex (((digitsBase4 k i).reverse).map (fun d => 3 - d)) hmem
  rw [hlen] at h
  simpa [rcIndex] using h

theorem rcIndex_involutive (k i : Nat) (h : i < 4 ^ k) :
    rcIndex k (rcIndex k i) = i := by
  have hd4 := digitsBase4_lt k i h
  have hmap : (digitsBase4 k i).map ((fun d => 3 - d) ∘ fun d => 3 - d) = digitsBase4 k i := by
    have hcongr : ∀ a ∈ digitsBase4 k i,
        ((fun d => 3 - d) ∘ fun d => 3 - d) a = id a := by
      intro a ha
      have := hd4 a ha
      simp only [Function.comp, id]
      omega
    rw [List.map_congr_left hcongr, List.map_id]
  conv_lhs => rw [rcIndex, digitsBase4_rcIndex]
  simp only [List.map_reverse, List.reverse_reverse, List.map_map]
  rw [hmap]
  exact kmerIndex_digitsBase4 k i h

theorem getD_range_map {α : Type} (f : Nat → α) (n j : Nat) (hj : j < n) (d : α) :
    ((List.range n).map f).getD j d = f j := by
  rw [List.getD_eq_getElem _ _ (by simpa using hj)]
  simp

theorem sum_range_ite (n i : Nat) (f : Nat → Nat) (hi : i < n) :
    ((List.range n).map (fun t => if t = i then f t else 0)).sum = f i := by
  induction n with
  | zero => omega
  | succ n ih =>
    rw [List.range_succ, List.map_append, List.sum_append]
    simp only [List.map_cons, List.map_nil, List.sum_cons, List.sum_nil]
    by_cases hc : i < n
    · rw [ih hc, if_neg (by omega)]
      simp
    · have hin : i = n := by omega
      subst hin
      rw [if_pos rfl]
      have hzero : ((List.range i).map (fun t => if t = i then f t else 0)).sum = 0 := by
        apply List.sum_eq_zero
        intro x hx
        rw [List.mem_map] at hx
        obtain ⟨t, ht, rfl⟩ := hx
        rw [List.mem_range] at ht
        rw [if_neg (by omega)]
      rw [hzero]
      simp

theorem count_one_range_ite (n t : Nat) :
    (((List.range n).map (fun j => if j = t then (1 : Nat) else 0)).count 1)
      = if t < n then 1 else 0 := by
  induction n with
  | zero => simp
  | succ n ih =>
    rw [List.range_succ, List.map_append, List.count_append, ih]
    by_cases h1 : n = t
    · subst h1
      simp [List.count_cons]
    · have hcnt : List.count 1 (List.map (fun j => if j = t then (1 : Nat) else 0) [n]) = 0 := by
        simp [List.count_cons, h1]
      rw [hcnt]
      by_cases h2 : t < n
      · rw [if_pos h2, if_pos (by omega : t < n + 1)]
      · rw [if_neg h2, if_neg (by omega : ¬ t < n + 1)]

theorem complement_permmatrix_length (k : Nat) :
    (complement_permmatrix k).length = 4 ^ k := by
  simp [complement_permmatrix]

theorem complement_permmatrix_row (k i : Nat) (hi : i < 4 ^ k) :
    (complement_permmatrix k).getD i []
      = (List.range (4 ^ k)).map (fun j => if j = rcIndex k i then 1 else 0) :=
  getD_range_map _ _ _ hi _

theorem complement_permmatrix_entry (k i j : Nat) (hi : i < 4 ^ k) (hj : j < 4 ^ k) :
    ((complement_permmatrix k).getD i []).getD j 0
      = if j = rcIndex k i then 1 else 0 := by
  rw [complement_permmatrix_row k i hi]
  exact getD_range_map _ _ _ hj _

theorem zipWith_self {α β : Type} (h : α → α → β) (l : List α) :
    List.zipWith h l l = l.map (fun a => h a a) := by
  induction l with
  | nil => rfl
  | cons a tl ih => simp [ih]

theorem colOf_permmatrix (k j : Nat) (hj : j < 4 ^ k) :
    colOf (complement_permmatrix k) j
      = (List.range (4 ^ k)).map (fun i => if j = rcIndex k i then 1 else 0) := by
  unfold colOf complement_permmatrix
  rw [List.map_map]
  apply List.map_congr_left
  intro i _
  exact getD_range_map _ _ _ hj _

theorem vecMatMul_oneHot (k i : Nat) (hi : i < 4 ^ k) :
    vecMatMul (oneHotRow (4 ^ k) (some i)) (complement_permmatrix k) (4 ^ k)
      = oneHotRow (4 ^ k) (some (rcIndex k i)) := by
  show (List.range (4 ^ k)).map _ = (List.range (4 ^ k)).map _
  apply List.map_congr_left
  intro j hj
  rw [List.mem_range] at hj
  show dotprod (oneHotRow (4 ^ k) (some i)) (colOf (complement_permmatrix k) j)
      = if j = rcIndex k i then 1 else 0
  rw [colOf_permmatrix k j hj]
  show (List.zipWith (fun a b => a * b)
      ((List.range (4 ^ k)).map (fun t => if t = i then 1 else 0))
      ((List.range (4 ^ k)).map (fun t => if j = rcIndex k t then 1 else 0))).sum
      = if j = rcIndex k i then 1 else 0
  rw [List.zipWith_map, zipWith_self]
  have hcongr : ∀ t ∈ List.range (4 ^ k),
      (if t = i then (1 : Nat) else 0) * (if j = rcIndex k t then 1 else 0)
        = if t = i then (if j = rcIndex k t then 1 else 0) else 0 := by
    intro t _
    by_cases hti : t = i <;> simp [hti]
  rw [List.map_congr_left hcongr]
  exact sum_range_ite (4 ^ k) i _ hi

theorem permmatrix_matmul_self (k : Nat) :
    matMulL (complement_permmatrix k) (complement_permmatrix k) (4 ^ k)
      = idMatrix (4 ^ k) := by
  unfold matMulL
  nth_rewrite 2 [complement_permmatrix]
  rw [List.map_map, idMatrix]
  apply List.map_congr_left
  intro i hi
  rw [List.mem_range] at hi
  have h1 : ((fun row => vecMatMul row (complement_permmatrix k) (4 ^ k)) ∘ fun i =>
      (List.range (4 ^ k)).map fun j => if j = rcIndex k i then 1 else 0) i
      = vecMatMul (oneHotRow (4 ^ k) (some (rcIndex k i))) (complement_permmatrix k)
        (4 ^ k) := rfl
  rw [h1, vecMatMul_oneHot k _ (rcIndex_lt k i), rcIndex_involutive k i hi]
  rfl

theorem complementLayer_oneHot_twice (k : Nat) (slab : List (List Nat))
    (hslab : ∀ row ∈ slab, ∃ t, t < 4 ^ k ∧ row = oneHotRow (4 ^ k) (some t)) :
    complementLayer k (complementLayer k slab) = slab := by
  unfold complementLayer
  rw [List.map_map]
  have hrows : ∀ row ∈ slab, ((fun v => vecMatMul v (complement_permmatrix k) (4 ^ k)) ∘
      fun v => vecMatMul v (complement_permmatrix k) (4 ^ k)) row = id row := by
    intro row hrow
    obtain ⟨t, ht, rfl⟩ := hslab row hrow
    simp only [Function.comp, id]
    rw [vecMatMul_oneHot k t ht, vecMatMul_oneHot k _ (rcIndex_lt k t),
      rcIndex_involutive k t ht]
  rw [List.map_congr_left hrows, List.map_id]

theorem col_count_one (k j : Nat) (hj : j < 4 ^ k) :
    (colOf (complement_permmatrix k) j).count 1 = 1 := by
  rw [colOf_permmatrix k j hj]
  have hcongr : ∀ i ∈ List.range (4 ^ k),
      (if j = rcIndex k i then (1 : Nat) else 0) = if i = rcIndex k j then 1 else 0 := by
    intro i hi
    rw [List.mem_range] at hi
    by_cases h : j = rcIndex k i
    · rw [if_pos h, if_pos (by rw [h, rcIndex_involutive k i hi])]
    · have hne : ¬ i = rcIndex k j := by
        intro hij
        apply h
        rw [hij, rcIndex_involutive k j hj]
      rw [if_neg h, if_neg hne]
  rw [List.map_congr_left hcongr, count_one_range_ite, if_pos (rcIndex_lt k j)]

/-- C1: for every order k ≥ 1 and k-mer index i < 4^k, row i of the
reverse-complement permutation matrix has exactly one 1, located at the
column holding the index of the reverse complement of i (base-4 digits of i
reversed, each digit x replaced by 3 - x); every column also has exactly one
1; and multiplying the one-hot row of i by the matrix yields the one-hot row
of the reverse complement of i. -/
theorem C1_complement_permmatrix_permutation (k : Nat) (hk : 1 ≤ k)
    (i : Nat) (hi : i < 4 ^ k) :
    (complement_permmatrix k).length = 4 ^ k ∧
    ((complement_permmatrix k).getD i []).length = 4 ^ k ∧
    rcIndex k i = kmerIndex (((digitsBase4 k i).reverse).map (fun d => 3 - d)) ∧
    ((complement_permmatrix k).getD i []).getD (rcIndex k i) 0 = 1 ∧
    (∀ j, j < 4 ^ k → j ≠ rcIndex k i →
      ((complement_permmatrix k).getD i []).getD j 0 = 0) ∧
    ((complement_permmatrix k).getD i []).count 1 = 1 ∧
    (∀ j, j < 4 ^ k → (colOf (complement_permmatrix k) j).count 1 = 1) ∧
    vecMatMul (oneHotRow (4 ^ k) (some i)) (complement_permmatrix k) (4 ^ k)
      = oneHotRow (4 ^ k) (some (rcIndex k i)) := by
  refine ⟨complement_permmatrix_length k, ?_, rfl, ?_, ?_, ?_, ?_,
    vecMatMul_oneHot k i hi⟩
  · rw [complement_permmatrix_row k i hi]
    simp
  · rw [complement_permmatrix_entry k i _ hi (rcIndex_lt k i), if_pos rfl]
  · intro j hj hne
    rw [complement_permmatrix_entry k i j hi hj, if_neg hne]
  · rw [complement_permmatrix_row k i hi, count_one_range_ite,
      if_pos (rcIndex_lt k i)]
  · intro j hj
    exact col_count_one k j hj

/-- C1 witness: the theorem instantiated at order 1 and k-mer index 1 (C),
whose reverse complement is G at index 2. -/
theorem C1_complement_permmatrix_permutation_witness :
    (complement_permmatrix 1).length = 4 ^ 1 ∧
    ((complement_permmatrix 1).getD 1 []).length = 4 ^ 1 ∧
    rcIndex 1 1 = kmerIndex (((digitsBase4 1 1).reverse).map (fun d => 3 - d)) ∧
    ((complement_permmatrix 1).getD 1 []).getD (rcIndex 1 1) 0 = 1 ∧
    (∀ j, j < 4 ^ 1 → j ≠ rcIndex 1 1 →
      ((complement_permmatrix 1).getD 1 []).getD j 0 = 0) ∧
    ((complement_permmatrix 1).getD 1 []).count 1 = 1 ∧
    (∀ j, j < 4 ^ 1 → (colOf (complement_permmatrix 1) j).count 1 = 1) ∧
    vecMatMul (oneHotRow (4 ^ 1) (some 1)) (complement_permmatrix 1) (4 ^ 1)
      = oneHotRow (4 ^ 1) (some (rcIndex 1 1)) :=
  C1_complement_permmatrix_permutation 1 (by decide) 1 (by decide)

/-- C2: for every order k in 1..4 the reverse-complement permutation matrix
composed with itself is the identity matrix of size 4^k, and applying the
Complement transformation layer twice to any one-hot DNA slab returns the
original slab exactly. -/
theorem C2_involution (k : Nat) (hk1 : 1 ≤ k) (hk4 : k ≤ 4)
    (slab : List (List Nat))
    (hslab : ∀ row ∈ slab, ∃ t, t < 4 ^ k ∧ row = oneHotRow (4 ^ k) (some t)) :
    matMulL (complement_permmatrix k) (complement_permmatrix k) (4 ^ k)
      = idMatrix (4 ^ k) ∧
    complementLayer k (complementLayer k slab) = slab :=
  ⟨permmatrix_matmul_self k, complementLayer_oneHot_twice k slab hslab⟩

/-- C2 witness: the theorem instantiated at order 1 and the slab holding the
single one-hot row of G. -/
theorem C2_involution_witness :
    matMulL (complement_permmatrix 1) (complement_permmatrix 1) (4 ^ 1)
      = idMatrix (4 ^ 1) ∧
    complementLayer 1 (complementLayer 1 [oneHotRow (4 ^ 1) (some 2)])
      = [oneHotRow (4 ^ 1) (some 2)] :=
  C2_involution 1 (by decide) (by decide) [oneHotRow (4 ^ 1) (some 2)]
    (by
      intro row hrow
      refine ⟨2, by decide, ?_⟩
      rw [List.mem_singleton] at hrow
      exact hrow)

/-- C3 counterexample: for the reverse-strand window "AA" at order 1,
applying only the permutation matrix (without reversing the window axis)
already yields exactly the specified reverse-strand encoding, so the claim
that applying only one of the two transformations always yields a different
result is false. -/
theorem C3_single_transform_counterexample :
    complementLayer 1 (encodeSlab 1 ['A', 'A']) = encodeRegion 1 ['A', 'A'] '-' := by
  decide

/-- C3 (amended): for every order and window sequence, the reverse-strand
encoding equals the forward slab with its window-length axis reversed and the
permutation matrix applied to every row; omitting one of the two
transformations is incorrect in general: for the order-1 window "AC" each
single transformation alone differs from the specified encoding. -/
theorem C3_minus_strand_encoding (k : Nat) (s : List Char) :
    encodeRegion k s '-' = complementLayer k ((encodeSlab k s).reverse) ∧
    (encodeSlab 1 ['A', 'C']).reverse ≠ encodeRegion 1 ['A', 'C'] '-' ∧
    complementLayer 1 (encodeSlab 1 ['A', 'C']) ≠ encodeRegion 1 ['A', 'C'] '-' := by
  refine ⟨?_, by decide, by decide⟩
  simp [encodeRegion]

theorem kmerIndex_eq_sum (ds : List Nat) :
    kmerIndex ds
      = ((List.range ds.length).map
          (fun p => ds.getD p 0 * 4 ^ (ds.length - 1 - p))).sum := by
  induction ds with
  | nil => rfl
  | cons d t ih =>
    simp only [kmerIndex, List.length_cons]
    rw [List.range_succ_eq_map, List.map_cons, List.sum_cons, List.map_map]
    have h0 : (d :: t).getD 0 0 * 4 ^ (t.length + 1 - 1 - 0) = d * 4 ^ t.length := by
      simp
    have hrest : (List.range t.length).map
        ((fun p => (d :: t).getD p 0 * 4 ^ (t.length + 1 - 1 - p)) ∘ Nat.succ)
        = (List.range t.length).map (fun p => t.getD p 0 * 4 ^ (t.length - 1 - p)) := by
      apply List.map_congr_left
      intro p hp
      rw [List.mem_range] at hp
      simp only [Function.comp, List.getD_cons_succ]
      congr 2
      omega
    rw [h0, hrest, ← ih]

theorem kmerDigits_eq_some (w : List Char)
    (h : ∀ c ∈ w, (baseIndex c.toUpper).isSome) :
    kmerDigits w = some (w.map (fun c => (baseIndex c.toUpper).getD 0)) := by
  induction w with
  | nil => rfl
  | cons c cs ih =>
    have hc : (baseIndex c.toUpper).isSome := h c (by simp)
    obtain ⟨d, hd⟩ := Option.isSome_iff_exists.mp hc
    have ihs := ih (fun x hx => h x (by simp [hx]))
    simp only [kmerDigits, hd, ihs, List.map_cons]
    simp [hd]

theorem kmerDigits_eq_none (w : List Char)
    (h : ∃ c ∈ w, baseIndex c.toUpper = none) :
    kmerDigits w = none := by
  induction w with
  | nil => simp at h
  | cons c cs ih =>
    rcases h with ⟨x, hx, hnone⟩
    rw [List.mem_cons] at hx
    rcases hx with rfl | hx
    · simp [kmerDigits, hnone]
    · simp only [kmerDigits, ih ⟨x, hx, hnone⟩]
      cases baseIndex c.toUpper <;> rfl

theorem length_slidingWindows (k : Nat) (s : List Char) :
    (slidingWindows k s).length = s.length + 1 - k := by
  simp [slidingWindows]

theorem window_length (k : Nat) (s : List Char) (w : Nat) (hw : w + k ≤ s.length) :
    ((s.drop w).take k).length = k := by
  have hk : k ≤ (s.drop w).length := by
    rw [List.length_drop]
    omega
  rw [List.length_take, Nat.min_eq_left hk]

theorem mem_of_mem_window (k w : Nat) (s : List Char) (c : Char)
    (hc : c ∈ (s.drop w).take k) : c ∈ s :=
  List.Sublist.mem hc ((List.take_sublist _ _).trans (List.drop_sublist _ _))

theorem baseIndex_isSome_of_mem (c : Char)
    (h : c ∈ (['A', 'C', 'G', 'T'] : List Char)) : (baseIndex c).isSome := by
  simp only [List.mem_cons, List.not_mem_nil, or_false] at h
  rcases h with rfl | rfl | rfl | rfl <;> decide

/-- C4: for every order k ≥ 1 and every nucleotide string over A,C,G,T (after
uppercasing) of length L ≥ k, the Encoder produces exactly L - k + 1 k-mer
indices, one per width-k sliding window stepped by 1, and the index of window
w is the sum over positions p < k of the base index of the character at w + p
times 4 ^ (k - 1 - p). -/
theorem C4_encoder_indices (k : Nat) (hk : 1 ≤ k) (s : List Char)
    (hlen : k ≤ s.length)
    (hvalid : ∀ c ∈ s, c.toUpper ∈ (['A', 'C', 'G', 'T'] : List Char)) :
    (seq2ind k s).length = s.length - k + 1 ∧
    ∀ w, w < s.length - k + 1 →
      (seq2ind k s).getD w none
        = some (((List.range k).map (fun p =>
            (baseIndex (s.getD (w + p) 'N').toUpper).getD 0 * 4 ^ (k - 1 - p))).sum) := by
  constructor
  · rw [seq2ind, List.length_map, length_slidingWindows]
    omega
  · intro w hw
    have hw2 : w < s.length + 1 - k := by omega
    have hwk : w + k ≤ s.length := by omega
    have hget : (seq2ind k s).getD w none = kmerCode ((s.drop w).take k) := by
      rw [seq2ind, slidingWindows, List.map_map]
      exact getD_range_map _ _ _ hw2 _
    have hvalidwin : ∀ c ∈ (s.drop w).take k, (baseIndex c.toUpper).isSome := by
      intro c hc
      exact baseIndex_isSome_of_mem _ (hvalid c (mem_of_mem_window k w s c hc))
    rw [hget, kmerCode, kmerDigits_eq_some _ hvalidwin]
    rw [Option.map_some']
    congr 1
    rw [kmerIndex_eq_sum]
    have hlenmap :
        (((s.drop w).take k).map (fun c => (baseIndex c.toUpper).getD 0)).length = k := by
      rw [List.length_map, window_length k s w hwk]
    rw [hlenmap]
    apply congrArg List.sum
    apply List.map_congr_left
    intro p hp
    rw [List.mem_range] at hp
    have hp1 : p < (((s.drop w).take k).map
        (fun c => (baseIndex c.toUpper).getD 0)).length := by
      rw [hlenmap]
      exact hp
    have hp2 : w + p < s.length := by omega
    congr 1
    rw [List.getD_eq_getElem _ _ hp1, List.getElem_map,
      List.getD_eq_getElem _ _ hp2]
    congr 1
    rw [List.getElem_take, List.getElem_drop]

/-- C4 witness: the theorem instantiated at order 2 and the string "AC",
which yields the single index 0 * 4 + 1 = 1. -/
theorem C4_encoder_indices_witness :
    (seq2ind 2 ['A', 'C']).length = (['A', 'C'] : List Char).length - 2 + 1 ∧
    ∀ w, w < (['A', 'C'] : List Char).length - 2 + 1 →
      (seq2ind 2 ['A', 'C']).getD w none
        = some (((List.range 2).map (fun p =>
            (baseIndex ((['A', 'C'] : List Char).getD (w + p) 'N').toUpper).getD 0 *
              4 ^ (2 - 1 - p))).sum) :=
  C4_encoder_indices 2 (by decide) ['A', 'C'] (by decide) (by decide)

/-- C8: a window position whose k-mer contains any symbol outside A,C,G,T
(after normalizing lowercase to uppercase) is emitted as the all-zero one-hot
row instead of raising an error; a position whose k-mer is entirely valid is
encoded normally as the one-hot row of its k-mer index; and the base table
rejects exactly the symbols outside A,C,G,T. -/
theorem C8_unknown_symbol_zero_row (k : Nat) (hk : 1 ≤ k) (s : List Char)
    (w : Nat) (hw : w + k ≤ s.length) :
    ((∃ c ∈ (s.drop w).take k, baseIndex c.toUpper = none) →
      (encodeSlab k s).getD w [] = List.replicate (4 ^ k) 0) ∧
    ((∀ c ∈ (s.drop w).take k, (baseIndex c.toUpper).isSome) →
      (encodeSlab k s).getD w []
        = oneHotRow (4 ^ k)
            (some (kmerIndex (((s.drop w).take k).map
              (fun c => (baseIndex c.toUpper).getD 0))))) ∧
    (∀ c : Char, baseIndex c = none ↔ c ∉ (['A', 'C', 'G', 'T'] : List Char)) := by
  have hw2 : w < s.length + 1 - k := by omega
  have hget : (encodeSlab k s).getD w []
      = oneHotRow (4 ^ k) (kmerCode ((s.drop w).take k)) := by
    rw [encodeSlab, seq2ind, slidingWindows, List.map_map, List.map_map]
    exact getD_range_map _ _ _ hw2 _
  refine ⟨?_, ?_, ?_⟩
  · intro hnone
    rw [hget, kmerCode, kmerDigits_eq_none _ hnone]
    rfl
  · intro hvalid
    rw [hget, kmerCode, kmerDigits_eq_some _ hvalid]
    rfl
  · intro c
    simp only [baseIndex]
    split_ifs with h1 h2 h3 h4 <;> simp_all [List.mem_cons]

/-- C8 witness: the theorem instantiated at order 1 and the string "NA": the
first window is the unknown symbol N, the second the valid symbol A. -/
theorem C8_unknown_symbol_zero_row_witness :
    ((∃ c ∈ ((['N', 'A'] : List Char).drop 0).take 1, baseIndex c.toUpper = none) →
      (encodeSlab 1 ['N', 'A']).getD 0 [] = List.replicate (4 ^ 1) 0) ∧
    ((∀ c ∈ ((['N', 'A'] : List Char).drop 0).take 1, (baseIndex c.toUpper).isSome) →
      (encodeSlab 1 ['N', 'A']).getD 0 []
        = oneHotRow (4 ^ 1)
            (some (kmerIndex ((((['N', 'A'] : List Char).drop 0).take 1).map
              (fun c => (baseIndex c.toUpper).getD 0))))) ∧
    (∀ c : Char, baseIndex c = none ↔ c ∉ (['A', 'C', 'G', 'T'] : List Char)) :=
  C8_unknown_symbol_zero_row 1 (by decide) ['N', 'A'] 0 (by decide)

theorem windowStarts_length (reglen stepsize stop : Nat) (hr : 1 ≤ reglen)
    (hs : 1 ≤ stepsize) (p : Nat) :
    (windowStarts reglen stepsize stop p).length
      = if p + reglen ≤ stop then (stop - p - reglen) / stepsize + 1 else 0 := by
  have H : ∀ n p, stop - p ≤ n →
      (windowStarts reglen stepsize stop p).length
        = if p + reglen ≤ stop then (stop - p - reglen) / stepsize + 1 else 0 := by
    intro n
    induction n with
    | zero =>
      intro p hp
      rw [windowStarts, dif_neg (by omega), if_neg (by omega)]
      rfl
    | succ n ih =>
      intro p hp
      rw [windowStarts]
      by_cases hc : p + reglen ≤ stop
      · rw [dif_pos ⟨hr, hs, hc⟩, List.length_cons, ih (p + stepsize) (by omega),
          if_pos hc]
        by_cases hc2 : p + stepsize + reglen ≤ stop
        · rw [if_pos hc2]
          have ha : stop - (p + stepsize) - reglen = stop - p - reglen - stepsize := by
            omega
          have hge : stepsize ≤ stop - p - reglen := by omega
          have hdiv : (stop - p - reglen - stepsize + stepsize) / stepsize
              = (stop - p - reglen - stepsize) / stepsize + 1 :=
            Nat.add_div_right _ (by omega)
          rw [Nat.sub_add_cancel hge] at hdiv
          rw [ha, hdiv]
        · rw [if_neg hc2]
          have hlt : stop - p - reglen < stepsize := by omega
          rw [Nat.div_eq_of_lt hlt]
      · rw [dif_neg (fun hcon => hc hcon.2.2), if_neg hc]
        rfl
  exact H (stop - p) p (Nat.le_refl _)

theorem regionWindows_length (reglen stepsize : Nat) (hr : 1 ≤ reglen)
    (hs : 1 ≤ stepsize) (r : GenomicRegion) :
    (regionWindows reglen stepsize r).length = regionWindowCount reglen stepsize r := by
  rw [regionWindows, windowStarts_length reglen stepsize r.stop hr hs r.start,
    regionWindowCount, regionLength]
  by_cases h : reglen ≤ r.stop - r.start
  · rw [if_pos (show r.start + reglen ≤ r.stop by omega), if_pos h,
      Nat.add_div_right _ (show 0 < stepsize by omega)]
  · rw [if_neg (show ¬ r.start + reglen ≤ r.stop by omega), if_neg h]

theorem datasetLength_eq_sum (reglen stepsize : Nat) (hr : 1 ≤ reglen)
    (hs : 1 ≤ stepsize) (regions : List GenomicRegion) :
    datasetLength reglen stepsize regions
      = (regions.map (regionWindowCount reglen stepsize)).sum := by
  rw [datasetLength, datasetWindows, List.length_flatten, List.map_map]
  apply congrArg List.sum
  apply List.map_congr_left
  intro r _
  exact regionWindows_length reglen stepsize hr hs r

/-- C5: for every successfully constructed dataset the length equals the sum
over regions of floor((region_length - reglen + stepsize) / stepsize), where a
region shorter than reglen contributes zero windows, never a negative
count. -/
theorem C5_dataset_length (reglen stepsize : Nat) (hr : 1 ≤ reglen)
    (hs : 1 ≤ stepsize) (regions : List GenomicRegion) :
    datasetLength reglen stepsize regions
      = (regions.map (fun r => if reglen ≤ regionLength r
          then (regionLength r - reglen + stepsize) / stepsize else 0)).sum ∧
    ∀ r ∈ regions, regionLength r < reglen →
      (regionWindows reglen stepsize r).length = 0 := by
  constructor
  · rw [datasetLength_eq_sum reglen stepsize hr hs]
    rfl
  · intro r _ hshort
    rw [regionWindows_length reglen stepsize hr hs, regionWindowCount,
      if_neg (by omega)]

/-- C5 witness: two regions of lengths 5 and 1 with reglen 2 and stepsize 1;
the first contributes 4 windows, the short one contributes zero. -/
theorem C5_dataset_length_witness :
    datasetLength 2 1 [⟨"chr1", 0, 5, '+'⟩, ⟨"chr2", 0, 1, '+'⟩]
      = (([⟨"chr1", 0, 5, '+'⟩, ⟨"chr2", 0, 1, '+'⟩] : List GenomicRegion).map
          (fun r => if 2 ≤ regionLength r
            then (regionLength r - 2 + 1) / 1 else 0)).sum ∧
    ∀ r ∈ ([⟨"chr1", 0, 5, '+'⟩, ⟨"chr2", 0, 1, '+'⟩] : List GenomicRegion),
      regionLength r < 2 → (regionWindows 2 1 r).length = 0 :=
  C5_dataset_length 2 1 (by decide) (by decide) _

theorem length_encodeSlab (k : Nat) (s : List Char) :
    (encodeSlab k s).length = s.length + 1 - k := by
  simp [encodeSlab, seq2ind, length_slidingWindows]

theorem length_oneHotRow (n : Nat) (oi : Option Nat) :
    (oneHotRow n oi).length = n := by
  cases oi <;> simp [oneHotRow]

theorem length_extractWindow (genome : Nat → Char) (reglen flank wstart : Nat) :
    (extractWindow genome reglen flank wstart).length = reglen + 2 * flank := by
  simp [extractWindow]

/-- C6: for every successfully constructed tensor with parameters order,
reglen, flank, the shape is (num_windows_total, reglen + 2*flank - order + 1,
4^order, 1), and the contents are identical for the in-memory and the
persisted storage backend. -/
theorem C6_tensor_shape (storage storage2 : StorageMode)
    (order reglen flank stepsize : Nat) (hk : 1 ≤ order) (hr : 1 ≤ reglen)
    (hs : 1 ≤ stepsize) (ho : order ≤ reglen + 2 * flank)
    (genome : Nat → Char) (regions : List GenomicRegion) :
    (dnaTensorFromRefgenome storage order reglen flank stepsize genome regions).length
      = datasetLength reglen stepsize regions ∧
    (∀ slab ∈ dnaTensorFromRefgenome storage order reglen flank stepsize genome regions,
      slab.length = reglen + 2 * flank - order + 1 ∧
      ∀ row ∈ slab, row.length = 4 ^ order ∧ ∀ cell ∈ row, cell.length = 1) ∧
    dnaTensorFromRefgenome storage order reglen flank stepsize genome regions
      = dnaTensorFromRefgenome storage2 order reglen flank stepsize genome regions := by
  refine ⟨?_, ?_, rfl⟩
  · rw [dnaTensorFromRefgenome, List.length_map, datasetLength]
  · intro slab hslab
    rw [dnaTensorFromRefgenome, List.mem_map] at hslab
    obtain ⟨w, hw, rfl⟩ := hslab
    constructor
    · rw [List.length_map, length_encodeSlab, length_extractWindow]
      omega
    · intro row hrow
      rw [List.mem_map] at hrow
      obtain ⟨row0, hrow0, rfl⟩ := hrow
      constructor
      · rw [List.length_map]
        rw [encodeSlab, List.mem_map] at hrow0
        obtain ⟨oi, hoi, rfl⟩ := hrow0
        exact length_oneHotRow _ _
      · intro cell hcell
        rw [List.mem_map] at hcell
        obtain ⟨x, hx, rfl⟩ := hcell
        rfl

/-- C6 witness: the theorem instantiated at order 1, reglen 2, flank 0,
stepsize 1, an all-A reference and one region of length 3, for both storage
backends. -/
theorem C6_tensor_shape_witness :
    (dnaTensorFromRefgenome .ndarray 1 2 0 1 (fun _ => 'A')
      [⟨"chr1", 0, 3, '+'⟩]).length = datasetLength 2 1 [⟨"chr1", 0, 3, '+'⟩] ∧
    (∀ slab ∈ dnaTensorFromRefgenome .ndarray 1 2 0 1 (fun _ => 'A')
        [⟨"chr1", 0, 3, '+'⟩],
      slab.length = 2 + 2 * 0 - 1 + 1 ∧
      ∀ row ∈ slab, row.length = 4 ^ 1 ∧ ∀ cell ∈ row, cell.length = 1) ∧
    dnaTensorFromRefgenome .ndarray 1 2 0 1 (fun _ => 'A') [⟨"chr1", 0, 3, '+'⟩]
      = dnaTensorFromRefgenome .hdf5 1 2 0 1 (fun _ => 'A') [⟨"chr1", 0, 3, '+'⟩] :=
  C6_tensor_shape .ndarray .hdf5 1 2 0 1 (by decide) (by decide) (by decide)
    (by decide) (fun _ => 'A') [⟨"chr1", 0, 3, '+'⟩]

/-- C7: construction with order < 1, reglen ≤ 0, flank < 0, stepsize ≤ 0, a
null regions argument or an unreadable reference source fails with a
validation error at construction time and produces no tensor at all. -/
theorem C7_eager_validation (storage : StorageMode)
    (order reglen flank stepsize : Int) (regions : Option (List GenomicRegion))
    (refReadable : Bool) (genome : Nat → Char)
    (hbad : order < 1 ∨ reglen ≤ 0 ∨ flank < 0 ∨ stepsize ≤ 0 ∨ regions = none
      ∨ refReadable = false) :
    (∃ e, createFromRefgenome storage order reglen flank stepsize regions refReadable
      genome = Except.error e) ∧
    ∀ t, createFromRefgenome storage order reglen flank stepsize regions refReadable
      genome ≠ Except.ok t := by
  have herr : ∃ e, createFromRefgenome storage order reglen flank stepsize regions
      refReadable genome = Except.error e := by
    rw [createFromRefgenome]
    by_cases h1 : order < 1
    · rw [if_pos h1]
      exact ⟨_, rfl⟩
    · rw [if_neg h1]
      by_cases h2 : reglen ≤ 0 ∨ flank < 0 ∨ stepsize ≤ 0
      · rw [if_pos h2]
        exact ⟨_, rfl⟩
      · rw [if_neg h2]
        by_cases h3 : regions.isNone = true
        · rw [if_pos h3]
          exact ⟨_, rfl⟩
        · rw [if_neg h3]
          have h4 : refReadable = false := by
            rcases hbad with h | h | h | h | h | h
            · exact absurd h h1
            · exact absurd (Or.inl h) h2
            · exact absurd (Or.inr (Or.inl h)) h2
            · exact absurd (Or.inr (Or.inr h)) h2
            · exact absurd (by rw [h]; rfl) h3
            · exact h
          rw [if_pos h4]
          exact ⟨_, rfl⟩
  refine ⟨herr, ?_⟩
  obtain ⟨e, he⟩ := herr
  intro t hcontra
  rw [he] at hcontra
  exact Except.noConfusion hcontra

/-- C7 witness: the theorem instantiated at order 0 with otherwise valid
parameters. -/
theorem C7_eager_validation_witness :
    (∃ e, createFromRefgenome .ndarray 0 200 150 50 (some []) true (fun _ => 'A')
      = Except.error e) ∧
    ∀ t, createFromRefgenome .ndarray 0 200 150 50 (some []) true (fun _ => 'A')
      ≠ Except.ok t :=
  C7_eager_validation .ndarray 0 200 150 50 (some []) true (fun _ => 'A')
    (Or.inl (by decide))

/-- C9: the auto-generated model name depends only on str(inputp) and
str(outputp): the hasher input is overwritten to str(inputp) + str(outputp)
before hashing, so two calls that agree on inputp and outputp but differ in
model function, model parameters or modelzoo produce the identical name. -/
theorem C9_autoname_ignores_model (md5hex : String → String)
    (pt1 f1 mp1 : String) (z1 : Option String)
    (pt2 f2 mp2 : String) (z2 : Option String) (inputpStr outputpStr : String) :
    janggoCreateNameInput pt1 f1 mp1 z1 inputpStr outputpStr
      = inputpStr ++ outputpStr ∧
    janggoAutoName md5hex pt1 f1 mp1 z1 inputpStr outputpStr
      = janggoAutoName md5hex pt2 f2 mp2 z2 inputpStr outputpStr :=
  ⟨rfl, rfl⟩

theorem setName_pystr (s : String) :
    setName (PyArg.pystr s)
      = if s.contains '.' then Except.error "A dot in the name is not allowed."
        else Except.ok s := rfl

/-- C10: the name setter raises exactly when the argument is not a string or
contains a dot; otherwise it stores the name unchanged, so every successfully
constructed Janggo instance carries a dot-free string name. -/
theorem C10_name_setter (arg : PyArg) :
    ((∃ e, setName arg = Except.error e)
      ↔ (arg = PyArg.nonstr ∨ ∃ s, arg = PyArg.pystr s ∧ s.contains '.' = true)) ∧
    (∀ s, arg = PyArg.pystr s → s.contains '.' = false → setName arg = Except.ok s) ∧
    (∀ j, janggoInit arg = Except.ok j →
      j.name.contains '.' = false ∧ arg = PyArg.pystr j.name) := by
  cases arg with
  | nonstr =>
    refine ⟨⟨fun _ => Or.inl rfl, fun _ => ⟨"Name must be a string.", rfl⟩⟩, ?_, ?_⟩
    · intro s hs
      cases hs
    · intro j hj
      cases hj
  | pystr s =>
    refine ⟨⟨?_, ?_⟩, ?_, ?_⟩
    · intro he
      obtain ⟨e, he⟩ := he
      by_cases hdot : s.contains '.' = true
      · exact Or.inr ⟨s, rfl, hdot⟩
      · rw [setName_pystr, if_neg hdot] at he
        cases he
    · intro h
      rcases h with h | ⟨s2, hs2, hdot⟩
      · cases h
      · injection hs2 with h
        subst h
        rw [setName_pystr, if_pos hdot]
        exact ⟨_, rfl⟩
    · intro s2 hs2 hfalse
      injection hs2 with h
      subst h
      rw [setName_pystr, if_neg (by simp [hfalse])]
    · intro j hj
      by_cases hdot : s.contains '.' = true
      · rw [janggoInit, setName_pystr, if_pos hdot] at hj
        cases hj
      · rw [janggoInit, setName_pystr, if_neg hdot] at hj
        simp only [Except.map] at hj
        injection hj with h
        subst h
        simp only [Bool.not_eq_true] at hdot
        exact ⟨hdot, rfl⟩

/-- C10 witness: the theorem instantiated at the string name "train". -/
theorem C10_name_setter_witness :
    ((∃ e, setName (PyArg.pystr "train") = Except.error e)
      ↔ (PyArg.pystr "train" = PyArg.nonstr
          ∨ ∃ s, PyArg.pystr "train" = PyArg.pystr s ∧ s.contains '.' = true)) ∧
    (∀ s, PyArg.pystr "train" = PyArg.pystr s → s.contains '.' = false →
      setName (PyArg.pystr "train") = Except.ok s) ∧
    (∀ j, janggoInit (PyArg.pystr "train") = Except.ok j →
      j.name.contains '.' = false ∧ PyArg.pystr "train" = PyArg.pystr j.name) :=
  C10_name_setter (PyArg.pystr "train")
